import Mathlib

/-!
Verification of the spacedash AWS lambda functions: a shallow embedding of
the leaderboard handler (top-coins / top-enemies rankings and per-player
fastest-times aggregation) and of the player-stats update handler, together
with theorems settling the specification claims.

JavaScript runtime values are modelled by the inductive type JSValue;
machine doubles are modelled by rationals, with NaN represented as
Option.none at the points where it can arise (parsing and numeric
coercion).  JS exceptions (TypeError on property access of null/undefined
and on calling .map of a non-array) are modelled by Except String.
-/

/-- A JavaScript runtime value, as far as the two lambda handlers need:
undefined, null, booleans, numbers (modelled as rationals; the handlers
never produce non-finite doubles), strings, arrays and plain objects
(association lists in property-insertion order). -/
inductive JSValue where
  | undef
  | null
  | bool (b : Bool)
  | num (q : ℚ)
  | str (s : String)
  | arr (elems : List JSValue)
  | obj (fields : List (String × JSValue))

namespace JSValue

/-- JS truthiness: undefined, null, false, 0 and the empty string are falsy;
arrays and objects are always truthy. -/
def truthy : JSValue → Bool
  | undef => false
  | null => false
  | bool b => b
  | num q => decide (q ≠ 0)
  | str s => decide (s ≠ "")
  | arr _ => true
  | obj _ => true

/-- The test `typeof v === 'object'`; true for null, arrays and objects. -/
def isObjectType : JSValue → Bool
  | null => true
  | arr _ => true
  | obj _ => true
  | _ => false

/-- The JS `a || b` short-circuit: `a` when truthy, otherwise `b`. -/
def jsOr (a b : JSValue) : JSValue :=
  if truthy a then a else b

/-- Property access `v[k]` in the cases the handlers rely on: on an object,
the first binding of the key (undefined when absent); on every other value
that does not throw, undefined.  Access on null/undefined, which throws in
JS, is modelled separately by getFieldChecked. -/
def getField : JSValue → String → JSValue
  | obj fields, k =>
    match fields.find? (fun kv => kv.1 = k) with
    | some kv => kv.2
    | none => undef
  | _, _ => undef

/-- Property access that models the TypeError thrown by JS when the receiver
is null or undefined (used for the unguarded `timeObj.N` access). -/
def getFieldChecked (v : JSValue) (k : String) : Except String JSValue :=
  match v with
  | null => .error ("TypeError: Cannot read properties of null (reading " ++ k ++ ")")
  | undef => .error ("TypeError: Cannot read properties of undefined (reading " ++ k ++ ")")
  | v => .ok (getField v k)

/-- The key/value pairs visited by `for (const k in v)`: an object's own
fields in insertion order; an array's indices with their elements; nothing
for primitives. -/
def ownEntries : JSValue → List (String × JSValue)
  | obj fields => fields
  | arr elems => (elems.enum).map (fun ix => (toString ix.1, ix.2))
  | _ => []

def isNullOrUndef : JSValue → Bool
  | null => true
  | undef => true
  | _ => false

end JSValue

/-! ### Numeric string parsing (JS parseFloat / parseInt / Number coercion)

Only the decimal forms are modelled.  The exotic corners — hexadecimal
prefixes accepted by parseInt, the strings "Infinity"/"NaN", and
array-to-number coercion through string conversion for arrays of length
other than zero or one — are not representable in the rational number model
and never arise in the records the theorems quantify over; they are mapped
to NaN (Option.none). -/

/-- Numeric value of a list of decimal digit characters. -/
def digitsVal (ds : List Char) : ℕ :=
  ds.foldl (fun a c => 10 * a + (c.toNat - 48)) 0

/-- Parse an optional exponent `e`/`E` with optional sign; returns the
exponent and the remaining characters, or 0 and the input unchanged when no
well-formed exponent part is present (parseFloat takes the longest valid
numeric prefix, so a dangling `e` is simply not consumed). -/
def parseExpPart (cs : List Char) : ℤ × List Char :=
  match cs with
  | 'e' :: rest => parseSigned cs rest
  | 'E' :: rest => parseSigned cs rest
  | _ => (0, cs)
where
  parseSigned (orig rest : List Char) : ℤ × List Char :=
    match rest with
    | '+' :: rest2 => parseDigits orig rest2 1
    | '-' :: rest2 => parseDigits orig rest2 (-1)
    | _ => parseDigits orig rest 1
  parseDigits (orig rest : List Char) (sign : ℤ) : ℤ × List Char :=
    let ds := rest.takeWhile Char.isDigit
    if ds.isEmpty then (0, orig)
    else (sign * (digitsVal ds : ℤ), rest.dropWhile Char.isDigit)

/-- Parse an unsigned decimal literal `digits [. digits] [exponent]` or
`. digits [exponent]` as the longest valid prefix; none when no digit is
found.  Returns the value and the unconsumed characters. -/
def parseUnsignedCore (cs : List Char) : Option (ℚ × List Char) :=
  let ip := cs.takeWhile Char.isDigit
  let r1 := cs.dropWhile Char.isDigit
  let fpr : List Char × List Char :=
    match r1 with
    | '.' :: rest => (rest.takeWhile Char.isDigit, rest.dropWhile Char.isDigit)
    | _ => ([], r1)
  let fp := fpr.1
  if ip.isEmpty && fp.isEmpty then none
  else
    let base : ℚ := (digitsVal ip : ℚ) + (digitsVal fp : ℚ) / ((10 : ℚ) ^ fp.length)
    let er := parseExpPart fpr.2
    some (base * (10 : ℚ) ^ er.1, er.2)

/-- JS `parseFloat` on a string: skip leading whitespace, optional sign,
then the longest valid decimal prefix; NaN (none) when no digit follows. -/
def strParseFloat (s : String) : Option ℚ :=
  let cs := s.toList.dropWhile Char.isWhitespace
  match cs with
  | '-' :: rest => (parseUnsignedCore rest).map (fun vr => -vr.1)
  | '+' :: rest => (parseUnsignedCore rest).map (fun vr => vr.1)
  | _ => (parseUnsignedCore cs).map (fun vr => vr.1)

/-- JS `Number("...")` string coercion: whitespace-only is 0; otherwise the
whole (trimmed) string must be a signed decimal literal, else NaN. -/
def strToNumber (s : String) : Option ℚ :=
  let cs := s.toList.dropWhile Char.isWhitespace
  let cs := (cs.reverse.dropWhile Char.isWhitespace).reverse
  match cs with
  | [] => some 0
  | '-' :: rest => (parseUnsignedCore rest).bind
      (fun vr => if vr.2.isEmpty then some (-vr.1) else none)
  | '+' :: rest => (parseUnsignedCore rest).bind
      (fun vr => if vr.2.isEmpty then some vr.1 else none)
  | _ => (parseUnsignedCore cs).bind
      (fun vr => if vr.2.isEmpty then some vr.1 else none)

/-- JS `parseFloat(v)` on an arbitrary value: the argument is first
converted to a string, so numbers round-trip, strings parse by their
longest decimal prefix, and a one-element array parses as its element;
everything else stringifies to a non-numeric prefix, giving NaN. -/
def jsParseFloat : JSValue → Option ℚ
  | .num q => some q
  | .str s => strParseFloat s
  | .arr [x] => jsParseFloat x
  | _ => none

/-- JS `ToNumber` coercion as used by the subtraction in the sort
comparators: none models NaN. -/
def toNumber : JSValue → Option ℚ
  | .undef => none
  | .null => some 0
  | .bool b => some (if b then 1 else 0)
  | .num q => some q
  | .str s => strToNumber s
  | .arr [] => some 0
  | .arr [x] => toNumber x
  | .arr _ => none
  | .obj _ => none

/-- JS `parseInt` (decimal) on a string: skip whitespace, optional sign,
then leading decimal digits; NaN (none) when no digit is found. -/
def strParseInt (s : String) : Option ℤ :=
  let cs := s.toList.dropWhile Char.isWhitespace
  match cs with
  | '-' :: rest =>
    let ds := rest.takeWhile Char.isDigit
    if ds.isEmpty then none else some (-(digitsVal ds : ℤ))
  | '+' :: rest =>
    let ds := rest.takeWhile Char.isDigit
    if ds.isEmpty then none else some (digitsVal ds : ℤ)
  | _ =>
    let ds := cs.takeWhile Char.isDigit
    if ds.isEmpty then none else some (digitsVal ds : ℤ)

/-- The update handler's `parseInt(x) || 0` on an optional query-string
parameter: an absent parameter gives `parseInt(undefined) = NaN`, and
falsy results (NaN or 0) coalesce to 0. -/
def parseIntOr0 : Option String → ℤ
  | none => 0
  | some s =>
    match strParseInt s with
    | none => 0
    | some n => n

/-! ### The in-place array sorts

`Array.prototype.sort(comparefn)` is stable (ECMAScript 2019) and sorts the
array in place.  Both comparators in the leaderboard handler have the shape
`(keyOf(b)) - (keyOf(a))` — a stable descending sort by a numeric key — so
the sort is embedded as a stable insertion sort parameterised by the key.
A key is an `Option ℚ`: none models NaN (the comparator result when a
record's field coerces to NaN), in which case the relative order is
implementation-defined in JS; the model fixes one behaviour (the element
sinks), and every ordering theorem assumes NaN-free keys. -/

/-- Comparator decision: keep `p` before `q` exactly when the JS comparator
`key q - key p` is `<= 0`, i.e. `key q ≤ key p`; false when either key is
NaN. -/
def keyGE : Option ℚ → Option ℚ → Bool
  | some a, some b => decide (b ≤ a)
  | _, _ => false

/-- Stable insertion of `p` (the earlier element) into an already
descending-sorted list: `p` goes in front of the first element whose key it
ties or beats. -/
def insertDescBy (key : α → Option ℚ) (p : α) : List α → List α
  | [] => [p]
  | q :: qs => if keyGE (key p) (key q) then p :: q :: qs else q :: insertDescBy key p qs

/-- Stable descending sort by a numeric key, the embedding of
`.sort((a, b) => keyOf(b) - keyOf(a))`. -/
def sortDescBy (key : α → Option ℚ) : List α → List α
  | [] => []
  | p :: ps => insertDescBy key p (sortDescBy key ps)

/-- Stable insertion for the ascending times sort `(a, b) => a - b`. -/
def insertAsc (x : ℚ) : List ℚ → List ℚ
  | [] => [x]
  | y :: ys => if x ≤ y then x :: y :: ys else y :: insertAsc x ys

/-- Ascending sort of the parsed level times. -/
def sortTimesAsc : List ℚ → List ℚ
  | [] => []
  | x :: xs => insertAsc x (sortTimesAsc xs)

/-! ### The leaderboard handler (GET /leaderboard)

Embedding of the handler that scans the `player-stats` table and builds
`{topCoins, topEnemies, allFastestTimes}`.  The DynamoDB scan is passed in
as a value: `Except String (Option (List JSValue))` models the awaited
call (which may reject) yielding `data.Items` (which the code checks for
presence). -/

/-- The sort key used by the coins comparator and display: the operand
`player['coins-collected'] || 0` coerced to a number. -/
def coinsKey (p : JSValue) : Option ℚ :=
  toNumber (JSValue.jsOr (p.getField "coins-collected") (.num 0))

/-- The sort key used by the enemies comparator and display. -/
def enemiesKey (p : JSValue) : Option ℚ :=
  toNumber (JSValue.jsOr (p.getField "enemies-defeated") (.num 0))

/-- One entry of the topCoins ranking: `{username, coins}` with the raw
falsy-coalesced values, exactly as the final `.map` builds them. -/
structure CoinsEntry where
  username : JSValue
  coins : JSValue

/-- One entry of the topEnemies ranking: `{username, enemies}`. -/
structure EnemiesEntry where
  username : JSValue
  enemies : JSValue

def mkCoinsEntry (p : JSValue) : CoinsEntry :=
  ⟨p.getField "username", JSValue.jsOr (p.getField "coins-collected") (.num 0)⟩

def mkEnemiesEntry (p : JSValue) : EnemiesEntry :=
  ⟨p.getField "username", JSValue.jsOr (p.getField "enemies-defeated") (.num 0)⟩

/-- The generalised ranking of the spec's `topN(records, coins, n)`; the
handler instantiates `n = 10` via `.slice(0, 10)`. -/
def topNCoins (n : ℕ) (players : List JSValue) : List CoinsEntry :=
  ((sortDescBy coinsKey players).take n).map mkCoinsEntry

/-- The generalised `topN(records, enemies, n)`. -/
def topNEnemies (n : ℕ) (players : List JSValue) : List EnemiesEntry :=
  ((sortDescBy enemiesKey players).take n).map mkEnemiesEntry

/-- The callback of `times[level].L.map((timeObj) => parseFloat(timeObj.N))`:
the unguarded `.N` access throws on null/undefined elements; the parse
result may be NaN (none), removed afterwards by the isNaN filter. -/
def parseTimeObj (timeObj : JSValue) : Except String (Option ℚ) := do
  let n ← timeObj.getFieldChecked "N"
  pure (jsParseFloat n)

/-- One level's contribution inside the `for (const level in times)` loop:
`times[level]?.L` is tested for truthiness; a truthy non-array throws
(`.map is not a function`); an array is mapped through `parseFloat(el.N)`
(throwing on null/undefined elements), NaN-filtered, and sorted ascending.
Returns none when the level is skipped (no truthy `L`). -/
def levelEntry (lv : JSValue) : Except String (Option (List ℚ)) :=
  let lval := lv.getField "L"
  if lval.truthy then
    match lval with
    | .arr elems => do
      let parsed ← elems.mapM parseTimeObj
      pure (some (sortTimesAsc (parsed.filterMap id)))
    | _ => .error "TypeError: times[level].L.map is not a function"
  else
    pure none

/-- The loop over a record's fastest-times entries, accumulating the
per-level sorted lists in visit order. -/
def processLevels : List (String × JSValue) → Except String (List (String × List ℚ))
  | [] => pure []
  | (k, lv) :: rest => do
    match ← levelEntry lv with
    | some ts => pure ((k, ts) :: (← processLevels rest))
    | none => processLevels rest

/-- One output entry of allFastestTimes: `{username, fastestTimes}`. -/
structure LevelTimesEntry where
  username : JSValue
  fastestTimes : List (String × List ℚ)

/-- The per-player body of the `allFastestTimes` map: guard
`times && typeof times === 'object'`, then the per-level loop. -/
def allFastestTimesEntry (player : JSValue) : Except String LevelTimesEntry := do
  let times := player.getField "fastest-times"
  let ft ←
    if times.truthy && times.isObjectType then
      processLevels times.ownEntries
    else
      pure []
  pure ⟨player.getField "username", ft⟩

/-- The response body built in the GET branch. -/
structure LeaderboardBody where
  topCoins : List CoinsEntry
  topEnemies : List EnemiesEntry
  allFastestTimes : List LevelTimesEntry

/-- The GET branch on the scanned players, with the in-place mutation of
`players` made explicit: the coins sort reorders the array before the
enemies sort reads it, and the enemies sort reorders it before the
allFastestTimes map reads it. -/
def composeBody (players : List JSValue) : Except String LeaderboardBody := do
  let players1 := sortDescBy coinsKey players
  let topCoins := (players1.take 10).map mkCoinsEntry
  let players2 := sortDescBy enemiesKey players1
  let topEnemies := (players2.take 10).map mkEnemiesEntry
  let allFastestTimes ← players2.mapM allFastestTimesEntry
  pure ⟨topCoins, topEnemies, allFastestTimes⟩

/-- The GET branch together with the final state of the `players` array
(`data.Items` after both in-place sorts). -/
def composeState (players : List JSValue) :
    Except String LeaderboardBody × List JSValue :=
  (composeBody players, sortDescBy enemiesKey (sortDescBy coinsKey players))

/-- The topCoins list the handler returns for a given scan result. -/
def topCoinsOut (players : List JSValue) : List CoinsEntry :=
  topNCoins 10 players

/-- The topEnemies list the handler returns: the enemies sort runs on the
array already re-ordered in place by the coins sort. -/
def topEnemiesOut (players : List JSValue) : List EnemiesEntry :=
  topNEnemies 10 (sortDescBy coinsKey players)

/-- The allFastestTimes list the handler returns: the map runs on the array
as left by the enemies sort. -/
def allFastestTimesOut (players : List JSValue) :
    Except String (List LevelTimesEntry) :=
  (sortDescBy enemiesKey (sortDescBy coinsKey players)).mapM allFastestTimesEntry

/-- The body finally serialised: the composed document on success, or the
`{error: message}` object built in the catch branch. -/
inductive HandlerBody where
  | success (b : LeaderboardBody)
  | failure (message : String)

/-- The lambda response: `statusCode` is the string `'200'` or `'400'`
exactly as in the source, plus the constant CORS headers. -/
structure LambdaResponse where
  statusCode : String
  body : HandlerBody

/-- The constant headers of the leaderboard response. -/
def leaderboardHeaders : List (String × String) :=
  [("Content-Type", "application/json"),
   ("Access-Control-Allow-Origin", "*"),
   ("Access-Control-Allow-Methods", "GET,OPTIONS"),
   ("Access-Control-Allow-Headers", "Content-Type")]

/-- The try block: switch on the method; on GET, await the scan (which may
reject), throw when `data.Items` is absent, and build the body; any other
method throws. -/
def handlerCore (httpMethod : String)
    (scanItems : Except String (Option (List JSValue))) :
    Except String LeaderboardBody := do
  if httpMethod = "GET" then
    match ← scanItems with
    | none => .error "No data found in DynamoDB"
    | some players => composeBody players
  else
    .error ("Unsupported method \x22" ++ httpMethod ++ "\x22")

/-- The full leaderboard handler: `statusCode` stays `'200'` unless the
catch branch runs, which sets `'400'` and an error body. -/
def leaderboardHandler (httpMethod : String)
    (scanItems : Except String (Option (List JSValue))) : LambdaResponse :=
  match handlerCore httpMethod scanItems with
  | .ok b => ⟨"200", .success b⟩
  | .error e => ⟨"400", .failure e⟩

/-! ### The stats-update handler (updatePlayerStatsDDB)

Embedding of the handler that overwrites one player's record.  Query-string
parameters are strings or absent (`Option String`); `JSON.parse` of the
`levelsCompleted` / `fastestTimes` parameters is modelled by passing the
parsed values directly (the JSON grammar itself is a library concern, not
repository logic), and the DynamoDB put is passed in as an
`Except String Unit` that models the awaited call. -/

/-- The item the handler writes: the parsed fastest-times value is stored
verbatim — plain parsed JSON, with no `{L: [{N: ...}]}` tagging. -/
def buildItem (username : String) (coinsCollected enemiesDefeated : Option String)
    (parsedLevels parsedFastestTimes : JSValue) : JSValue :=
  .obj [("username", .str username),
        ("coins-collected", .num (parseIntOr0 coinsCollected : ℤ)),
        ("enemies-defeated", .num (parseIntOr0 enemiesDefeated : ℤ)),
        ("levels-completed", parsedLevels),
        ("fastest-times", parsedFastestTimes)]

/-- Body of the update handler's response. -/
inductive UpdateBody where
  | message (m : String)
  | successBody (m : String) (item : JSValue)
  | errorBody (m : String)

/-- Response of the update handler; here the source uses numeric status
codes (400 / 200 / 500). -/
structure UpdateResponse where
  statusCode : ℕ
  body : UpdateBody

/-- The update handler: missing or empty (falsy) username gives 400; any
failure of the put is caught and mapped to 500; otherwise 200 with the
written item echoed back. -/
def updateHandler (username coinsCollected enemiesDefeated : Option String)
    (parsedLevels parsedFastestTimes : JSValue)
    (putResult : Except String Unit) : UpdateResponse :=
  match username with
  | none => ⟨400, .message "Username is required."⟩
  | some u =>
    if u = "" then ⟨400, .message "Username is required."⟩
    else
      match putResult with
      | .error _ => ⟨500, .errorBody "Failed to update player stats."⟩
      | .ok _ => ⟨200, .successBody "Player stats overwritten successfully."
          (buildItem u coinsCollected enemiesDefeated parsedLevels parsedFastestTimes)⟩

/-! ### Safety predicates

The leaderboard normalization throws exactly when some level's truthy `L`
value is not an array, or is an array containing a null/undefined element.
These decidable predicates delimit the throw-free records. -/

/-- A level value that the per-level loop handles without throwing. -/
def safeLevelVal (lv : JSValue) : Bool :=
  let lval := lv.getField "L"
  if lval.truthy then
    match lval with
    | .arr elems => elems.all (fun e => !e.isNullOrUndef)
    | _ => false
  else true

/-- A record whose allFastestTimes entry is computed without throwing. -/
def safeRecord (rec : JSValue) : Bool :=
  let times := rec.getField "fastest-times"
  if times.truthy && times.isObjectType then
    times.ownEntries.all (fun kv => safeLevelVal kv.2)
  else true

/-! ### Concrete records used by scenario theorems and counterexamples -/

/-- Scenario record a of the ranking tie-break example. -/
def scenA : JSValue := .obj [("username", .str "a"), ("coins-collected", .num 5)]

/-- Scenario record b of the ranking tie-break example. -/
def scenB : JSValue := .obj [("username", .str "b"), ("coins-collected", .num 5)]

/-- Scenario record c of the ranking tie-break example. -/
def scenC : JSValue := .obj [("username", .str "c"), ("coins-collected", .num 9)]

/-- Record with few coins but the same enemies count as qbRec. -/
def qaRec : JSValue :=
  .obj [("username", .str "a"), ("coins-collected", .num 0), ("enemies-defeated", .num 1)]

/-- Record with more coins and the same enemies count as qaRec. -/
def qbRec : JSValue :=
  .obj [("username", .str "b"), ("coins-collected", .num 5), ("enemies-defeated", .num 1)]

/-- Record with fewer enemies defeated than pbRec. -/
def paRec : JSValue := .obj [("username", .str "a"), ("enemies-defeated", .num 1)]

/-- Record with more enemies defeated than paRec. -/
def pbRec : JSValue := .obj [("username", .str "b"), ("enemies-defeated", .num 2)]

/-- Record whose fastest-times level has a truthy non-array L value. -/
def badLRec : JSValue :=
  .obj [("username", .str "x"),
        ("fastest-times", .obj [("level1", .obj [("L", .num 5)])])]

/-- The spec's fastest-times normalization scenario record. -/
def scenTimesRec : JSValue :=
  .obj [("username", .str "u"),
        ("fastest-times", .obj [("level1", .obj [("L", .arr
          [.obj [("N", .str "12.5")],
           .obj [("N", .str "bad")],
           .obj [("N", .str "3.2")]])])])]

/-- Record with no coins-collected field at all. -/
def noCoinsRec : JSValue := .obj [("username", .str "x")]

/-- Record whose coins-collected field is a truthy non-numeric string. -/
def abcCoinsRec : JSValue :=
  .obj [("username", .str "x"), ("coins-collected", .str "abc")]

/-- Record with a positive coins-collected value. -/
def coins5Rec : JSValue :=
  .obj [("username", .str "y"), ("coins-collected", .num 5)]

/-! ### Ordering vocabulary for the ranking theorems -/

/-- Read a possibly-NaN key as a rational (NaN-free hypotheses make the
default irrelevant). -/
def optQ (o : Option ℚ) : ℚ := o.getD 0

/-- Descending order of two elements by a numeric key. -/
def descKeyRel (key : α → Option ℚ) (a b : α) : Prop :=
  optQ (key b) ≤ optQ (key a)

/-- Descending order of two topCoins entries by their displayed metric. -/
def coinsEntryDesc (e1 e2 : CoinsEntry) : Prop :=
  optQ (toNumber e2.coins) ≤ optQ (toNumber e1.coins)

/-- Descending order of two topEnemies entries by their displayed metric. -/
def enemiesEntryDesc (e1 e2 : EnemiesEntry) : Prop :=
  optQ (toNumber e2.enemies) ≤ optQ (toNumber e1.enemies)

/-! ### Helper lemmas about the stable sorts -/

theorem keyGE_some_iff {a b : ℚ} : keyGE (some a) (some b) = true ↔ b ≤ a := by
  simp [keyGE]

theorem insertDescBy_pos {key : α → Option ℚ} {p q : α} {qs : List α}
    (h : keyGE (key p) (key q) = true) :
    insertDescBy key p (q :: qs) = p :: q :: qs := by
  simp [insertDescBy, h]

theorem insertDescBy_neg {key : α → Option ℚ} {p q : α} {qs : List α}
    (h : ¬ keyGE (key p) (key q) = true) :
    insertDescBy key p (q :: qs) = q :: insertDescBy key p qs := by
  simp [insertDescBy, h]

theorem perm_insertDescBy (key : α → Option ℚ) (p : α) (l : List α) :
    List.Perm (insertDescBy key p l) (p :: l) := by
  induction l with
  | nil => exact List.Perm.refl _
  | cons q qs ih =>
    by_cases h : keyGE (key p) (key q) = true
    · rw [insertDescBy_pos h]
    · rw [insertDescBy_neg h]
      exact ((ih.cons q).trans (List.Perm.swap p q qs))

theorem perm_sortDescBy (key : α → Option ℚ) (l : List α) :
    List.Perm (sortDescBy key l) l := by
  induction l with
  | nil => exact List.Perm.refl _
  | cons p ps ih =>
    exact (perm_insertDescBy key p (sortDescBy key ps)).trans (ih.cons p)

theorem mem_sortDescBy {key : α → Option ℚ} {l : List α} {x : α} :
    x ∈ sortDescBy key l ↔ x ∈ l :=
  (perm_sortDescBy key l).mem_iff

theorem length_sortDescBy (key : α → Option ℚ) (l : List α) :
    (sortDescBy key l).length = l.length :=
  (perm_sortDescBy key l).length_eq

theorem sorted_insertDescBy {key : α → Option ℚ} {p : α} {l : List α}
    (hp : (key p).isSome) (hl : ∀ x ∈ l, (key x).isSome)
    (hs : List.Sorted (descKeyRel key) l) :
    List.Sorted (descKeyRel key) (insertDescBy key p l) := by
  induction l with
  | nil => simp [insertDescBy]
  | cons q qs ih =>
    obtain ⟨kp, hkp⟩ := Option.isSome_iff_exists.mp hp
    obtain ⟨kq, hkq⟩ := Option.isSome_iff_exists.mp (hl q (List.mem_cons_self q qs))
    rw [List.sorted_cons] at hs
    by_cases h : keyGE (key p) (key q) = true
    · have hqp : descKeyRel key p q := by
        rw [hkp, hkq] at h
        simp only [descKeyRel, optQ, hkp, hkq, Option.getD_some]
        exact keyGE_some_iff.mp h
      rw [insertDescBy_pos h, List.sorted_cons]
      refine ⟨?_, List.sorted_cons.mpr hs⟩
      intro b hb
      rcases List.mem_cons.mp hb with rfl | hb
      · exact hqp
      · exact le_trans (hs.1 b hb) hqp
    · have hpq : descKeyRel key q p := by
        rw [hkp, hkq] at h
        have hnle : ¬ kq ≤ kp := fun hle => h (keyGE_some_iff.mpr hle)
        simp only [descKeyRel, optQ, hkp, hkq, Option.getD_some]
        exact le_of_lt (lt_of_not_le hnle)
      rw [insertDescBy_neg h, List.sorted_cons]
      refine ⟨?_, ih (fun x hx => hl x (List.mem_cons_of_mem q hx)) hs.2⟩
      intro b hb
      have hb' := (perm_insertDescBy key p qs).mem_iff.mp hb
      rcases List.mem_cons.mp hb' with rfl | hb'
      · exact hpq
      · exact hs.1 b hb'

theorem sorted_sortDescBy {key : α → Option ℚ} {l : List α}
    (hl : ∀ x ∈ l, (key x).isSome) :
    List.Sorted (descKeyRel key) (sortDescBy key l) := by
  induction l with
  | nil => simp [sortDescBy]
  | cons p ps ih =>
    exact sorted_insertDescBy (hl p (List.mem_cons_self p ps))
      (fun x hx => hl x (List.mem_cons_of_mem p (mem_sortDescBy.mp hx)))
      (ih (fun x hx => hl x (List.mem_cons_of_mem p hx)))

theorem keyGE_false_ne {key : α → Option ℚ} {p q : α} {v : ℚ}
    (h : ¬ keyGE (key p) (key q) = true) (hp : key p = some v) :
    ¬ key q = some v := by
  intro hq
  exact h (by rw [hp, hq]; exact keyGE_some_iff.mpr le_rfl)

theorem filter_insertDescBy (key : α → Option ℚ) (p : α) (l : List α) (v : ℚ) :
    (insertDescBy key p l).filter (fun x => decide (key x = some v)) =
      if key p = some v then
        p :: l.filter (fun x => decide (key x = some v))
      else l.filter (fun x => decide (key x = some v)) := by
  induction l with
  | nil =>
    by_cases hp : key p = some v <;> simp [insertDescBy, List.filter, hp]
  | cons q qs ih =>
    by_cases h : keyGE (key p) (key q) = true
    · rw [insertDescBy_pos h]
      by_cases hp : key p = some v <;> by_cases hq : key q = some v <;>
        simp [List.filter_cons, hp, hq]
    · rw [insertDescBy_neg h]
      by_cases hp : key p = some v
      · have hq : ¬ key q = some v := keyGE_false_ne h hp
        simp [List.filter_cons, hp, hq, ih]
      · by_cases hq : key q = some v <;>
          simp [List.filter_cons, hp, hq, ih]

theorem filter_sortDescBy (key : α → Option ℚ) (l : List α) (v : ℚ) :
    (sortDescBy key l).filter (fun x => decide (key x = some v)) =
      l.filter (fun x => decide (key x = some v)) := by
  induction l with
  | nil => rfl
  | cons p ps ih =>
    by_cases hp : key p = some v <;>
      simp [sortDescBy, filter_insertDescBy, hp, List.filter_cons, ih]

theorem perm_insertAsc (x : ℚ) (l : List ℚ) :
    List.Perm (insertAsc x l) (x :: l) := by
  induction l with
  | nil => exact List.Perm.refl _
  | cons y ys ih =>
    by_cases h : x ≤ y
    · simp [insertAsc, h]
    · simp only [insertAsc, h, if_false]
      exact ((ih.cons y).trans (List.Perm.swap x y ys))

theorem perm_sortTimesAsc (l : List ℚ) :
    List.Perm (sortTimesAsc l) l := by
  induction l with
  | nil => exact List.Perm.refl _
  | cons x xs ih =>
    exact (perm_insertAsc x (sortTimesAsc xs)).trans (ih.cons x)

theorem sorted_insertAsc {x : ℚ} {l : List ℚ}
    (hs : List.Sorted (· ≤ ·) l) :
    List.Sorted (· ≤ ·) (insertAsc x l) := by
  induction l with
  | nil => simp [insertAsc]
  | cons y ys ih =>
    rw [List.sorted_cons] at hs
    by_cases h : x ≤ y
    · simp only [insertAsc, h, if_true]
      rw [List.sorted_cons]
      refine ⟨?_, List.sorted_cons.mpr hs⟩
      intro b hb
      rcases List.mem_cons.mp hb with rfl | hb
      · exact h
      · exact le_trans h (hs.1 b hb)
    · simp only [insertAsc, h, if_false]
      rw [List.sorted_cons]
      refine ⟨?_, ih hs.2⟩
      intro b hb
      have hb' := (perm_insertAsc x ys).mem_iff.mp hb
      rcases List.mem_cons.mp hb' with rfl | hb'
      · exact le_of_lt (lt_of_not_le h)
      · exact hs.1 b hb'

theorem sorted_sortTimesAsc (l : List ℚ) :
    List.Sorted (· ≤ ·) (sortTimesAsc l) := by
  induction l with
  | nil => simp [sortTimesAsc]
  | cons x xs ih => exact sorted_insertAsc ih

/-! ### Helper lemmas about Except-valued traversal -/

theorem except_bind_ok {α β ε : Type} (a : α) (f : α → Except ε β) :
    (Except.ok a : Except ε α) >>= f = f a := rfl

theorem except_pure {α ε : Type} (a : α) :
    (pure a : Except ε α) = Except.ok a := rfl

theorem mapM_except_nil {α β ε : Type} {f : α → Except ε β} :
    ([] : List α).mapM f = .ok [] := rfl

theorem mapM_except_cons {α β ε : Type} {f : α → Except ε β} {a : α} {l : List α} :
    (a :: l).mapM f =
      (f a) >>= (fun y => (l.mapM f) >>= (fun out => .ok (y :: out))) := by
  rw [← List.mapM'_eq_mapM, ← List.mapM'_eq_mapM]
  rfl

theorem mapM_ok_map {α β ε : Type} {f : α → Except ε β} {g : α → β} :
    ∀ (l : List α), (∀ x ∈ l, f x = .ok (g x)) → l.mapM f = .ok (l.map g)
  | [], _ => rfl
  | a :: t, h => by
    rw [mapM_except_cons, h a (List.mem_cons_self a t),
      mapM_ok_map t (fun x hx => h x (List.mem_cons_of_mem a hx))]
    rfl

theorem mapM_ok_of_forall_ok {α β ε : Type} {f : α → Except ε β} :
    ∀ (l : List α), (∀ x ∈ l, ∃ y, f x = Except.ok y) →
      ∃ out, l.mapM f = Except.ok out ∧ out.length = l.length ∧
        (∀ y ∈ out, ∃ x ∈ l, f x = Except.ok y) ∧
        (∀ x ∈ l, ∃ y ∈ out, f x = Except.ok y)
  | [], _ => ⟨[], rfl, rfl, by simp, by simp⟩
  | a :: l, h => by
    obtain ⟨y, hy⟩ := h a (List.mem_cons_self a l)
    obtain ⟨out, hout, hlen, h1, h2⟩ :=
      mapM_ok_of_forall_ok l (fun x hx => h x (List.mem_cons_of_mem a hx))
    refine ⟨y :: out, ?_, by simp [hlen], ?_, ?_⟩
    · rw [mapM_except_cons, hy, except_bind_ok, hout, except_bind_ok]
    · intro z hz
      rcases List.mem_cons.mp hz with rfl | hz
      · exact ⟨a, List.mem_cons_self a l, hy⟩
      · obtain ⟨x, hx, hfx⟩ := h1 z hz
        exact ⟨x, List.mem_cons_of_mem a hx, hfx⟩
    · intro x hx
      rcases List.mem_cons.mp hx with rfl | hx
      · exact ⟨y, List.mem_cons_self y out, hy⟩
      · obtain ⟨z, hz, hfz⟩ := h2 x hx
        exact ⟨z, List.mem_cons_of_mem y hz, hfz⟩

/-! ### Helper lemmas about the normalization entry -/

theorem getFieldChecked_ok {v : JSValue} (h : v.isNullOrUndef = false) (k : String) :
    v.getFieldChecked k = Except.ok (v.getField k) := by
  cases v
  case null => simp [JSValue.isNullOrUndef] at h
  case undef => simp [JSValue.isNullOrUndef] at h
  all_goals rfl

theorem parseTimeObj_ok {e : JSValue} (h : e.isNullOrUndef = false) :
    parseTimeObj e = Except.ok (jsParseFloat (e.getField "N")) := by
  rw [parseTimeObj, getFieldChecked_ok h, except_bind_ok, except_pure]

theorem levelEntry_skip {lv : JSValue} (h : (lv.getField "L").truthy = false) :
    levelEntry lv = .ok none := by
  simp [levelEntry, h, except_pure]

theorem levelEntry_arr {lv : JSValue} {elems : List JSValue}
    (hL : lv.getField "L" = .arr elems)
    (hsafe : ∀ e ∈ elems, e.isNullOrUndef = false) :
    levelEntry lv = .ok (some (sortTimesAsc
      ((elems.map (fun e => jsParseFloat (e.getField "N"))).filterMap id))) := by
  have hm : elems.mapM parseTimeObj
      = .ok (elems.map (fun e => jsParseFloat (e.getField "N"))) :=
    mapM_ok_map elems (fun e he => parseTimeObj_ok (hsafe e he))
  have hm2 : List.mapM.loop parseTimeObj elems []
      = .ok (elems.map (fun e => jsParseFloat (e.getField "N"))) := hm
  simp [levelEntry, hL, JSValue.truthy, hm, hm2, except_bind_ok, except_pure]

theorem levelEntry_ok_of_safe {lv : JSValue} (h : safeLevelVal lv = true) :
    ∃ o, levelEntry lv = Except.ok o := by
  by_cases ht : (lv.getField "L").truthy = true
  · simp only [safeLevelVal, ht, if_true] at h
    cases hL : lv.getField "L" with
    | arr elems =>
      rw [hL] at h
      have hsafe : ∀ e ∈ elems, e.isNullOrUndef = false := by
        intro e he
        have he2 := (List.all_eq_true.mp h) e he
        simpa using he2
      exact ⟨_, levelEntry_arr hL hsafe⟩
    | undef => rw [hL] at h; cases h
    | null => rw [hL] at h; cases h
    | bool b => rw [hL] at h; cases h
    | num q => rw [hL] at h; cases h
    | str s => rw [hL] at h; cases h
    | obj fields => rw [hL] at h; cases h
  · exact ⟨none, levelEntry_skip (by simpa using ht)⟩

theorem processLevels_ok_of_safe :
    ∀ {lvls : List (String × JSValue)},
      (∀ kv ∈ lvls, safeLevelVal kv.2 = true) →
      ∃ out, processLevels lvls = .ok out := by
  intro lvls
  induction lvls with
  | nil => exact fun _ => ⟨[], rfl⟩
  | cons kv rest ih =>
    intro h
    obtain ⟨k, lv⟩ := kv
    obtain ⟨o, ho⟩ := levelEntry_ok_of_safe (h (k, lv) (List.mem_cons_self _ _))
    obtain ⟨out, hout⟩ := ih (fun kv hkv => h kv (List.mem_cons_of_mem _ hkv))
    cases o with
    | some ts =>
      refine ⟨(k, ts) :: out, ?_⟩
      simp [processLevels, ho, hout, except_bind_ok, except_pure]
    | none =>
      refine ⟨out, ?_⟩
      simp [processLevels, ho, hout, except_bind_ok, except_pure]

theorem processLevels_all_skipped :
    ∀ {lvls : List (String × JSValue)},
      (∀ kv ∈ lvls, (kv.2.getField "L").truthy = false) →
      processLevels lvls = .ok [] := by
  intro lvls
  induction lvls with
  | nil => exact fun _ => rfl
  | cons kv rest ih =>
    intro h
    obtain ⟨k, lv⟩ := kv
    have h1 : levelEntry lv = .ok none :=
      levelEntry_skip (h (k, lv) (List.mem_cons_self _ _))
    have h2 := ih (fun kv hkv => h kv (List.mem_cons_of_mem _ hkv))
    simp [processLevels, h1, h2, except_bind_ok, except_pure]

theorem entry_of_processLevels {p : JSValue} {ft : List (String × List ℚ)}
    (hguard : ((p.getField "fastest-times").truthy
      && (p.getField "fastest-times").isObjectType) = true)
    (hft : processLevels (p.getField "fastest-times").ownEntries = .ok ft) :
    allFastestTimesEntry p = .ok ⟨p.getField "username", ft⟩ := by
  simp [allFastestTimesEntry, hguard, hft, except_bind_ok, except_pure]

theorem entry_guard_false {p : JSValue}
    (hguard : ((p.getField "fastest-times").truthy
      && (p.getField "fastest-times").isObjectType) = false) :
    allFastestTimesEntry p = .ok ⟨p.getField "username", []⟩ := by
  simp [allFastestTimesEntry, hguard, except_bind_ok, except_pure]

theorem entry_ok_of_safe {r : JSValue} (h : safeRecord r = true) :
    ∃ e, allFastestTimesEntry r = .ok e := by
  by_cases hguard : ((r.getField "fastest-times").truthy
      && (r.getField "fastest-times").isObjectType) = true
  · simp only [safeRecord, hguard, if_true] at h
    obtain ⟨out, hout⟩ := processLevels_ok_of_safe
      (fun kv hkv => (List.all_eq_true.mp h) kv hkv)
    exact ⟨_, entry_of_processLevels hguard hout⟩
  · exact ⟨_, entry_guard_false (by simpa using hguard)⟩

theorem username_of_entry {p : JSValue} {e : LevelTimesEntry}
    (h : allFastestTimesEntry p = Except.ok e) :
    e.username = p.getField "username" := by
  by_cases hguard : ((p.getField "fastest-times").truthy
      && (p.getField "fastest-times").isObjectType) = true
  · simp only [allFastestTimesEntry, hguard, if_true] at h
    cases hft : processLevels (p.getField "fastest-times").ownEntries with
    | error err => rw [hft] at h; cases h
    | ok ft =>
      rw [hft, except_bind_ok, except_pure] at h
      cases h
      rfl
  · rw [entry_guard_false (by simpa using hguard)] at h
    cases h
    rfl

theorem mapM_entry_username :
    ∀ {l : List JSValue} {out : List LevelTimesEntry},
      l.mapM allFastestTimesEntry = Except.ok out →
      out.map (fun e => e.username) = l.map (fun p => p.getField "username") := by
  intro l
  induction l with
  | nil =>
    intro out h
    rw [mapM_except_nil] at h
    cases h
    rfl
  | cons p t ih =>
    intro out h
    rw [mapM_except_cons] at h
    cases he : allFastestTimesEntry p with
    | error err => rw [he] at h; cases h
    | ok e =>
      rw [he, except_bind_ok] at h
      cases ht : t.mapM allFastestTimesEntry with
      | error err => rw [ht] at h; cases h
      | ok rest =>
        rw [ht, except_bind_ok] at h
        cases h
        simp [username_of_entry he, ih ht]

/-! ### Bridge lemmas for the handler -/

theorem handlerCore_get (players : List JSValue) :
    handlerCore "GET" (.ok (some players)) = composeBody players := rfl

theorem handlerCore_error (msg : String) :
    handlerCore "GET" (.error msg) = .error msg := rfl

theorem composeBody_ok {players : List JSValue} {aft : List LevelTimesEntry}
    (h : (sortDescBy enemiesKey (sortDescBy coinsKey players)).mapM
        allFastestTimesEntry = .ok aft) :
    composeBody players = .ok ⟨topCoinsOut players, topEnemiesOut players, aft⟩ := by
  have h2 : List.mapM.loop allFastestTimesEntry
      (sortDescBy enemiesKey (sortDescBy coinsKey players)) [] = .ok aft := h
  simp [composeBody, topCoinsOut, topEnemiesOut, topNCoins, topNEnemies, h, h2,
    except_bind_ok, except_pure]

/-! ### Claim theorems

Rational arithmetic must reduce inside closed evaluations, so the Batteries
arithmetic on Rat is made semireducible for this section (this changes
nothing logically; it only lets rfl and decide compute). -/

section ClaimTheorems

attribute [local semireducible] Rat.add Rat.sub Rat.mul Rat.inv

/-- C1 (counterexample): stability with respect to the original scan order
fails for the enemies metric.  Records qaRec and qbRec tie on
enemies-defeated, qaRec precedes qbRec in scan order, yet the handler's
topEnemies output lists qbRec first: the in-place coins sort had already
reordered the array (qbRec has more coins) before the enemies sort ran. -/
theorem topEnemies_scan_order_counterexample :
    enemiesKey qaRec = enemiesKey qbRec
    ∧ topEnemiesOut [qaRec, qbRec] = [⟨.str "b", .num 1⟩, ⟨.str "a", .num 1⟩]
    ∧ ([⟨.str "b", .num 1⟩, ⟨.str "a", .num 1⟩] : List EnemiesEntry)
        ≠ [⟨.str "a", .num 1⟩, ⟨.str "b", .num 1⟩] :=
  ⟨rfl, rfl, by simp⟩

/-- C1 (amended): for NaN-free metric values, each ranking is sorted
descending by its metric; the coins ranking is stable with respect to the
original scan order, while the enemies ranking is stable with respect to
the coins-sorted order of the array (the coins sort mutated it in place);
and the spec's tie-break scenario holds on the coins ranking. -/
theorem ranking_sorted_and_stable (players : List JSValue)
    (hc : ∀ p ∈ players, (coinsKey p).isSome)
    (he : ∀ p ∈ players, (enemiesKey p).isSome) :
    (List.Sorted coinsEntryDesc (topCoinsOut players)
      ∧ ∀ v : ℚ, (sortDescBy coinsKey players).filter
            (fun p => decide (coinsKey p = some v))
          = players.filter (fun p => decide (coinsKey p = some v)))
    ∧ (List.Sorted enemiesEntryDesc (topEnemiesOut players)
      ∧ ∀ v : ℚ, (sortDescBy enemiesKey (sortDescBy coinsKey players)).filter
            (fun p => decide (enemiesKey p = some v))
          = (sortDescBy coinsKey players).filter
            (fun p => decide (enemiesKey p = some v)))
    ∧ topNCoins 2 [scenA, scenB, scenC] = [⟨.str "c", .num 9⟩, ⟨.str "a", .num 5⟩] := by
  refine ⟨⟨?_, fun v => filter_sortDescBy coinsKey players v⟩,
    ⟨?_, fun v => filter_sortDescBy enemiesKey (sortDescBy coinsKey players) v⟩, rfl⟩
  · have hsorted : List.Sorted (descKeyRel coinsKey) (sortDescBy coinsKey players) :=
      sorted_sortDescBy hc
    have htake := hsorted.sublist (List.take_sublist 10 _)
    exact List.pairwise_map.mpr (htake.imp (fun {a b} hab => hab))
  · have he2 : ∀ p ∈ sortDescBy coinsKey players, (enemiesKey p).isSome :=
      fun p hp => he p (mem_sortDescBy.mp hp)
    have hsorted : List.Sorted (descKeyRel enemiesKey)
        (sortDescBy enemiesKey (sortDescBy coinsKey players)) :=
      sorted_sortDescBy he2
    have htake := hsorted.sublist (List.take_sublist 10 _)
    exact List.pairwise_map.mpr (htake.imp (fun {a b} hab => hab))

/-- C1 (witness): the amended theorem applied to the two-record input
qaRec, qbRec, whose metric fields are all numeric. -/
theorem ranking_sorted_and_stable_witness :
    List.Sorted coinsEntryDesc (topCoinsOut [qaRec, qbRec])
    ∧ List.Sorted enemiesEntryDesc (topEnemiesOut [qaRec, qbRec])
    ∧ topNCoins 2 [scenA, scenB, scenC] = [⟨.str "c", .num 9⟩, ⟨.str "a", .num 5⟩] := by
  have h := ranking_sorted_and_stable [qaRec, qbRec]
    (by
      intro p hp
      rcases List.mem_cons.mp hp with rfl | hp
      · rfl
      · rcases List.mem_cons.mp hp with rfl | hp
        · rfl
        · cases hp)
    (by
      intro p hp
      rcases List.mem_cons.mp hp with rfl | hp
      · rfl
      · rcases List.mem_cons.mp hp with rfl | hp
        · rfl
        · cases hp)
  exact ⟨h.1.1, h.2.1.1, h.2.2⟩

/-- C2 (counterexample): normalization is not total.  In badLRec the
fastest-times level has a truthy non-array L value; the JS `.map` call on
it throws, and the leaderboard handler's catch turns the whole aggregation
pass into an error response — one corrupt field fails the entire pass. -/
theorem malformed_field_fails_pass_counterexample :
    leaderboardHandler "GET" (.ok (some [badLRec]))
      = ⟨"400", .failure "TypeError: times[level].L.map is not a function"⟩
    ∧ ("400" : String) ≠ "200" :=
  ⟨rfl, by decide⟩

/-- C2 (amended): normalization raises no error, and the aggregation pass
succeeds with one entry per record, provided every record is throw-free:
whenever a level's tagged L value is truthy it is a list with no
null/undefined elements.  (A truthy non-list L value, or a null element,
throws a TypeError that fails the whole pass — see the counterexample.) -/
theorem normalization_total_on_safe_records (players : List JSValue)
    (h : ∀ r ∈ players, safeRecord r = true) :
    ∃ b, leaderboardHandler "GET" (.ok (some players)) = ⟨"200", .success b⟩
      ∧ b.allFastestTimes.length = players.length := by
  have hall : ∀ r ∈ sortDescBy enemiesKey (sortDescBy coinsKey players),
      safeRecord r = true :=
    fun r hr => h r (mem_sortDescBy.mp (mem_sortDescBy.mp hr))
  obtain ⟨out, hout, hlen, _, _⟩ :=
    mapM_ok_of_forall_ok _ (fun r hr => entry_ok_of_safe (hall r hr))
  refine ⟨⟨topCoinsOut players, topEnemiesOut players, out⟩, ?_, ?_⟩
  · rw [leaderboardHandler, handlerCore_get, composeBody_ok hout]
  · rw [hlen, length_sortDescBy, length_sortDescBy]

/-- C2 (witness): the amended theorem applied to the single well-shaped
scenario record. -/
theorem normalization_total_witness :
    ∃ b, leaderboardHandler "GET" (.ok (some [scenTimesRec]))
        = ⟨"200", .success b⟩
      ∧ b.allFastestTimes.length = [scenTimesRec].length :=
  normalization_total_on_safe_records [scenTimesRec] (by
    intro r hr
    rcases List.mem_cons.mp hr with rfl | hr
    · rfl
    · cases hr)

/-- C3: for a level stored in the tagged-list wire encoding whose elements
do not throw, the normalizer produces the level's values parsed as floats,
with unparseable elements discarded, sorted ascending (an all-unparseable
level yields the empty list); a level whose L value is not truthy is
skipped silently; and the spec's scenario record normalizes to
level1 -> [3.2, 12.5]. -/
theorem fastest_times_normalization {lv : JSValue} {elems : List JSValue}
    (hL : lv.getField "L" = .arr elems)
    (hsafe : ∀ e ∈ elems, e.isNullOrUndef = false) :
    (∃ ts, levelEntry lv = .ok (some ts)
      ∧ List.Sorted (· ≤ ·) ts
      ∧ List.Perm ts
          ((elems.map (fun e => jsParseFloat (e.getField "N"))).filterMap id)
      ∧ ((∀ e ∈ elems, jsParseFloat (e.getField "N") = none) → ts = []))
    ∧ (∀ lv2 : JSValue, (lv2.getField "L").truthy = false →
        levelEntry lv2 = .ok none)
    ∧ allFastestTimesEntry scenTimesRec
        = .ok ⟨.str "u", [("level1", [16/5, 25/2])]⟩ := by
  refine ⟨⟨_, levelEntry_arr hL hsafe, sorted_sortTimesAsc _, perm_sortTimesAsc _, ?_⟩,
    fun lv2 h2 => levelEntry_skip h2, rfl⟩
  intro hall
  have hnil : (elems.map (fun e => jsParseFloat (e.getField "N"))).filterMap id = [] := by
    rw [List.filterMap_eq_nil_iff]
    intro a ha
    obtain ⟨e, he, rfl⟩ := List.mem_map.mp ha
    exact hall e he
  rw [hnil]
  rfl

/-- C3 (witness): the theorem applied to the scenario level, whose three
elements are N-tagged strings (none of them null). -/
theorem fastest_times_normalization_witness :
    (∃ ts, levelEntry (.obj [("L", .arr
        [.obj [("N", .str "12.5")], .obj [("N", .str "bad")],
         .obj [("N", .str "3.2")]])]) = .ok (some ts)
      ∧ List.Sorted (· ≤ ·) ts
      ∧ List.Perm ts
          (([JSValue.obj [("N", .str "12.5")], .obj [("N", .str "bad")],
            .obj [("N", .str "3.2")]].map
              (fun e => jsParseFloat (e.getField "N"))).filterMap id)
      ∧ ((∀ e ∈ [JSValue.obj [("N", .str "12.5")], .obj [("N", .str "bad")],
            .obj [("N", .str "3.2")]],
          jsParseFloat (e.getField "N") = none) → ts = []))
    ∧ (∀ lv2 : JSValue, (lv2.getField "L").truthy = false →
        levelEntry lv2 = .ok none)
    ∧ allFastestTimesEntry scenTimesRec
        = .ok ⟨.str "u", [("level1", [16/5, 25/2])]⟩ :=
  fastest_times_normalization rfl (by decide)

/-- C4 (counterexample): the time aggregation does not preserve scan order.
With paRec before pbRec in scan order, the output lists pbRec's entry first
because the map runs over the array as re-sorted in place by the enemies
sort. -/
theorem aggregation_order_counterexample :
    allFastestTimesOut [paRec, pbRec] = .ok [⟨.str "b", []⟩, ⟨.str "a", []⟩]
    ∧ [paRec, pbRec].map (fun p => p.getField "username")
        = [.str "a", .str "b"]
    ∧ ([JSValue.str "b", .str "a"] : List JSValue) ≠ [.str "a", .str "b"] :=
  ⟨rfl, rfl, by simp⟩

/-- C4 (amended): on throw-free records the aggregation yields exactly one
entry per input record with no filtering — a player with no fastest-times
field still appears, with an empty mapping — but in the order left by the
final in-place enemies sort (a permutation of the input), not necessarily
the scan order. -/
theorem aggregation_entries (players : List JSValue)
    (h : ∀ r ∈ players, safeRecord r = true) :
    ∃ out, allFastestTimesOut players = .ok out
      ∧ out.length = players.length
      ∧ List.Perm (out.map (fun e => e.username))
          (players.map (fun p => p.getField "username"))
      ∧ (∀ e ∈ out, ∃ p ∈ players, allFastestTimesEntry p = .ok e)
      ∧ (∀ p ∈ players, ∃ e ∈ out, allFastestTimesEntry p = .ok e)
      ∧ (∀ p ∈ players, p.getField "fastest-times" = .undef →
          allFastestTimesEntry p = .ok ⟨p.getField "username", []⟩) := by
  have hmem : ∀ r : JSValue,
      r ∈ sortDescBy enemiesKey (sortDescBy coinsKey players) ↔ r ∈ players :=
    fun r => mem_sortDescBy.trans mem_sortDescBy
  obtain ⟨out, hout, hlen, h1, h2⟩ :=
    mapM_ok_of_forall_ok (sortDescBy enemiesKey (sortDescBy coinsKey players))
      (fun r hr => entry_ok_of_safe (h r ((hmem r).mp hr)))
  refine ⟨out, hout, ?_, ?_, ?_, ?_, ?_⟩
  · rw [hlen, length_sortDescBy, length_sortDescBy]
  · rw [mapM_entry_username hout]
    exact ((perm_sortDescBy enemiesKey _).trans (perm_sortDescBy coinsKey _)).map _
  · intro e he
    obtain ⟨p, hp, hfp⟩ := h1 e he
    exact ⟨p, (hmem p).mp hp, hfp⟩
  · intro p hp
    exact h2 p ((hmem p).mpr hp)
  · intro p _ hft
    exact entry_guard_false (by rw [hft]; rfl)

/-- C4 (witness): the amended theorem applied to the two-record input
paRec, pbRec (both throw-free). -/
theorem aggregation_entries_witness :
    ∃ out, allFastestTimesOut [paRec, pbRec] = .ok out
      ∧ out.length = [paRec, pbRec].length
      ∧ List.Perm (out.map (fun e => e.username))
          ([paRec, pbRec].map (fun p => p.getField "username"))
      ∧ (∀ e ∈ out, ∃ p ∈ [paRec, pbRec], allFastestTimesEntry p = .ok e)
      ∧ (∀ p ∈ [paRec, pbRec], ∃ e ∈ out, allFastestTimesEntry p = .ok e)
      ∧ (∀ p ∈ [paRec, pbRec], p.getField "fastest-times" = .undef →
          allFastestTimesEntry p = .ok ⟨p.getField "username", []⟩) :=
  aggregation_entries [paRec, pbRec] (by decide)

/-- C5 (counterexample): composing the leaderboard does not leave the input
sequence unchanged: the two in-place sorts reorder it (here pbRec, with
more enemies defeated, moves in front of paRec). -/
theorem compose_mutation_counterexample :
    (composeState [paRec, pbRec]).2 = [pbRec, paRec]
    ∧ ([pbRec, paRec] : List JSValue) ≠ [paRec, pbRec] :=
  ⟨rfl, by simp [paRec, pbRec]⟩

/-- C5 (amended): composing never adds, drops or rewrites a record — the
array after composition is a permutation of the input — but the sorts do
mutate the array in place, so the order is in general not the input order
(see the counterexample). -/
theorem compose_preserves_elements (players : List JSValue) :
    List.Perm (composeState players).2 players :=
  (perm_sortDescBy enemiesKey _).trans (perm_sortDescBy coinsKey _)

/-- C6 (counterexample): when the store scan rejects during a leaderboard
request, the handler's catch branch sets statusCode '400' — a client-error
status, not a 5xx server error. -/
theorem store_failure_client_error_counterexample :
    leaderboardHandler "GET" (.error "store unavailable")
      = ⟨"400", .failure "store unavailable"⟩
    ∧ ("400").toList.head? ≠ some '5' :=
  ⟨rfl, by decide⟩

/-- C6 (amended): a failed store call is surfaced as statusCode '400' by
the leaderboard handler (its catch maps every failure, store failures
included, to '400'), while the stats-update handler surfaces a failed put
as a 500 server error. -/
theorem store_failure_status (msg : String) (u : String) (hu : ¬ u = "")
    (cc ed : Option String) (pl ft : JSValue) (e : String) :
    leaderboardHandler "GET" (.error msg) = ⟨"400", .failure msg⟩
    ∧ updateHandler (some u) cc ed pl ft (.error e)
        = ⟨500, .errorBody "Failed to update player stats."⟩ := by
  constructor
  · rfl
  · simp [updateHandler, hu]

/-- C6 (witness): the amended theorem at a concrete store failure and a
concrete update request. -/
theorem store_failure_status_witness :
    leaderboardHandler "GET" (.error "timeout") = ⟨"400", .failure "timeout"⟩
    ∧ updateHandler (some "alice") (some "3") (some "4") (.arr []) (.obj [])
        (.error "put failed")
        = ⟨500, .errorBody "Failed to update player stats."⟩ :=
  store_failure_status "timeout" "alice" (by decide) (some "3") (some "4")
    (.arr []) (.obj []) "put failed"

/-- C7 (counterexample): a truthy unparseable coins-collected value is not
coerced to 0: the falsy-coalescing `|| 0` passes the string "abc" through,
and it appears verbatim as the metric value in the ranked output. -/
theorem unparseable_metric_counterexample :
    topCoinsOut [abcCoinsRec] = [⟨.str "x", .str "abc"⟩]
    ∧ (JSValue.str "abc") ≠ .num 0 :=
  ⟨rfl, by simp⟩

/-- C7 (amended): a coins-collected field that is absent (or otherwise
falsy) contributes metric value 0: its ranking key is 0, its output entry
shows 0, it is ranked strictly below any record with a positive numeric
value (for NaN-free inputs), and a record without the field produces a
normal 200 response.  A truthy non-numeric value, by contrast, is passed
through unchanged (see the counterexample). -/
theorem default_zero_ranking (players : List JSValue) (p q : JSValue)
    (hall : ∀ r ∈ players, (coinsKey r).isSome)
    (hpf : (p.getField "coins-collected").truthy = false)
    (c : ℚ) (hqc : coinsKey q = some c) (hc : 0 < c) :
    coinsKey p = some 0
    ∧ mkCoinsEntry p = ⟨p.getField "username", .num 0⟩
    ∧ (∀ i j (hi : i < (sortDescBy coinsKey players).length)
          (hj : j < (sortDescBy coinsKey players).length),
        (sortDescBy coinsKey players).get ⟨i, hi⟩ = p →
        (sortDescBy coinsKey players).get ⟨j, hj⟩ = q → j < i)
    ∧ (∃ b, leaderboardHandler "GET" (.ok (some [noCoinsRec]))
        = ⟨"200", .success b⟩) := by
  have hkey : coinsKey p = some 0 := by
    simp [coinsKey, JSValue.jsOr, hpf, toNumber]
  refine ⟨hkey, by simp [mkCoinsEntry, JSValue.jsOr, hpf], ?_, ⟨_, rfl⟩⟩
  intro i j hi hj hip hjq
  by_contra hnot
  have hij : i ≤ j := le_of_not_lt hnot
  have hsorted : List.Sorted (descKeyRel coinsKey) (sortDescBy coinsKey players) :=
    sorted_sortDescBy hall
  rcases lt_or_eq_of_le hij with hlt | heq
  · have hrel := hsorted.rel_get_of_lt
      (show (⟨i, hi⟩ : Fin _) < ⟨j, hj⟩ from hlt)
    rw [hip, hjq] at hrel
    have : c ≤ 0 := by
      simpa [descKeyRel, optQ, hkey, hqc] using hrel
    exact absurd hc (not_lt_of_le this)
  · subst heq
    have hpq : p = q := by rw [← hip, ← hjq]
    rw [← hpq, hkey] at hqc
    have : c = 0 := by injection hqc with h0; exact h0.symm
    exact absurd hc (by rw [this]; exact lt_irrefl 0)

/-- C7 (witness): the amended theorem with p = noCoinsRec (no
coins-collected field) and q = coins5Rec (value 5) in a two-record scan. -/
theorem default_zero_ranking_witness :
    coinsKey noCoinsRec = some 0
    ∧ mkCoinsEntry noCoinsRec = ⟨noCoinsRec.getField "username", .num 0⟩
    ∧ (∀ i j (hi : i < (sortDescBy coinsKey [noCoinsRec, coins5Rec]).length)
          (hj : j < (sortDescBy coinsKey [noCoinsRec, coins5Rec]).length),
        (sortDescBy coinsKey [noCoinsRec, coins5Rec]).get ⟨i, hi⟩ = noCoinsRec →
        (sortDescBy coinsKey [noCoinsRec, coins5Rec]).get ⟨j, hj⟩ = coins5Rec →
          j < i)
    ∧ (∃ b, leaderboardHandler "GET" (.ok (some [noCoinsRec]))
        = ⟨"200", .success b⟩) :=
  default_zero_ranking [noCoinsRec, coins5Rec] noCoinsRec coins5Rec
    (by
      intro r hr
      rcases List.mem_cons.mp hr with rfl | hr
      · rfl
      · rcases List.mem_cons.mp hr with rfl | hr
        · rfl
        · cases hr)
    rfl 5 rfl (by decide)

/-- C8: for every n and input, the generalised topN has length
min(n, number of records); the handler's outputs are exactly the n = 10
instances (the enemies instance running on the coins-sorted array), so both
composed rankings also have length min(10, number of records). -/
theorem topN_length (n : ℕ) (players : List JSValue) :
    (topNCoins n players).length = min n players.length
    ∧ (topNEnemies n players).length = min n players.length
    ∧ topCoinsOut players = topNCoins 10 players
    ∧ topEnemiesOut players = topNEnemies 10 (sortDescBy coinsKey players)
    ∧ (topEnemiesOut players).length = min 10 players.length := by
  refine ⟨?_, ?_, rfl, rfl, ?_⟩
  · simp [topNCoins, length_sortDescBy]
  · simp [topNEnemies, length_sortDescBy]
  · simp [topEnemiesOut, topNEnemies, length_sortDescBy]

/-- C9: an empty scan is not an error: the handler returns status '200'
with three empty sequences. -/
theorem empty_scan_empty_body :
    leaderboardHandler "GET" (.ok (some []))
      = ⟨"200", .success ⟨[], [], []⟩⟩ := rfl

/-- C10: a fastestTimes mapping written through the stats-update handler is
stored verbatim as plain per-level arrays, without the tagged {L: [{N: ..}]}
wrapper; the leaderboard reader requires that wrapper, so it skips every
such level and returns an empty fastestTimes mapping for the player. -/
theorem write_read_times_lost (u : String) (cc ed : Option String)
    (pl : JSValue) (fields : List (String × JSValue))
    (harr : ∀ kv ∈ fields, ∃ xs, kv.2 = JSValue.arr xs) :
    (buildItem u cc ed pl (.obj fields)).getField "fastest-times" = .obj fields
    ∧ allFastestTimesEntry (buildItem u cc ed pl (.obj fields))
        = .ok ⟨.str u, []⟩ := by
  have hget : (buildItem u cc ed pl (.obj fields)).getField "fastest-times"
      = .obj fields := rfl
  refine ⟨hget, ?_⟩
  have hproc : processLevels
      ((buildItem u cc ed pl (.obj fields)).getField "fastest-times").ownEntries
      = .ok [] := by
    rw [hget]
    exact processLevels_all_skipped (fun kv hkv => by
      obtain ⟨xs, hxs⟩ := harr kv hkv
      rw [hxs]
      rfl)
  have := entry_of_processLevels (p := buildItem u cc ed pl (.obj fields))
    (by rw [hget]; rfl) hproc
  rw [this]
  rfl

/-- C10 (witness): a submitted mapping {level1: [3.2]} is stored as a plain
array and the reader returns an empty mapping for the player. -/
theorem write_read_times_lost_witness :
    (buildItem "u" none none (.arr [])
        (.obj [("level1", .arr [.num (16/5)])])).getField "fastest-times"
      = .obj [("level1", .arr [.num (16/5)])]
    ∧ allFastestTimesEntry (buildItem "u" none none (.arr [])
        (.obj [("level1", .arr [.num (16/5)])]))
      = .ok ⟨.str "u", []⟩ :=
  write_read_times_lost "u" none none (.arr [])
    [("level1", .arr [.num (16/5)])]
    (by
      intro kv hkv
      rcases List.mem_cons.mp hkv with rfl | hkv
      · exact ⟨[.num (16/5)], rfl⟩
      · cases hkv)

end ClaimTheorems
